import Mathlib

/-!
Verification of the invoice-data-extractor core (`src/main.py`) against its
natural-language specification.

The Python source is shallowly embedded: the pure text-processing functions
(`extract_date`, `extract_total`) are translated into executable Lean functions
over `List Char`; the regular expressions appearing in the source are realised
as dedicated matchers whose greedy/backtracking behaviour coincides with
Python `re` on the fixed patterns of the source (each determinisation step is
justified in a comment at the definition).  External collaborators (OpenCV
kernels, the Tesseract OCR engine, the HTTP layer) are modelled as opaque
function parameters, and the JSON store as an abstract file-state sum type.
Machine floats used only as comparison keys are modelled as exact rationals.
-/

namespace Invoice

/- ===================== character classes (ASCII model of Python `re`) ==== -/

/-- Class `[0-9]` / `\d` (ASCII model). -/
def isDigitChar (c : Char) : Bool := c.isDigit

/-- Class `\s` (ASCII model: space, tab, newline, carriage return, vertical
tab, form feed). -/
def isSpaceChar (c : Char) : Bool :=
  c = ' ' || c = '\t' || c = '\n' || c = '\r' || c = '\x0b' || c = '\x0c'

/-- Class `\w` (ASCII model: letters, digits, underscore), used for the word
boundary `\b`. -/
def isWordChar (c : Char) : Bool := c.isAlphanum || c = '_'

/-- The separator class (period, slash, hyphen) of the numeric date pattern. -/
def isSepChar (c : Char) : Bool := c = '.' || c = '/' || c = '-'

/- ===================== extract_date ===================================== -/

/-- Match the source pattern `\d{1,2} sep \d{1,2} sep \d{2,4}` (where `sep` is
the class of period, slash and hyphen) at the start of
`cs`, returning the matched characters.  Greediness is deterministic here:
each `\d{1,2}` is followed by the separator class, which is disjoint from the
digits, so backtracking a digit quantifier can never turn a failure into a
success; likewise `\d{2,4}` ends the pattern, so the longest repetition that
fits (capped at 4, at least 2) is the match. -/
def dateNumAt (cs : List Char) : Option (List Char) :=
  let d1 := (cs.takeWhile isDigitChar).take 2
  if d1.isEmpty then none else
  match cs.drop d1.length with
  | s1 :: cs₁ =>
    if isSepChar s1 then
      let d2 := (cs₁.takeWhile isDigitChar).take 2
      if d2.isEmpty then none else
      match cs₁.drop d2.length with
      | s2 :: cs₂ =>
        if isSepChar s2 then
          let d3 := (cs₂.takeWhile isDigitChar).take 4
          if 2 ≤ d3.length then some (d1 ++ s1 :: (d2 ++ s2 :: d3)) else none
        else none
      | [] => none
    else none
  | [] => none

/-- `re.search` of the numeric date pattern: try every start position from the
left, return the first match. -/
def searchDateNum : List Char → Option (List Char)
  | [] => none
  | c :: rest =>
    match dateNumAt (c :: rest) with
    | some m => some m
    | none => searchDateNum rest

/-- The month-name alternation of the textual date pattern, in source order.
No name is a prefix of another, so at any position at most one alternative can
match and the left-to-right alternative order of `re` is deterministic. -/
def monthNames : List (List Char) :=
  ["january".data, "february".data, "march".data, "april".data, "may".data,
   "june".data, "july".data, "august".data, "september".data, "october".data,
   "november".data, "december".data]

/-- Match a literal character sequence, returning the remaining input. -/
def matchLit : List Char → List Char → Option (List Char)
  | [], cs => some cs
  | _ :: _, [] => none
  | l :: ls, c :: cs => if c = l then matchLit ls cs else none

/-- Try a list of literal alternatives in order; return the matched literal
and the remaining input. -/
def matchAlt : List (List Char) → List Char → Option (List Char × List Char)
  | [], _ => none
  | a :: as, cs =>
    match matchLit a cs with
    | some r => some (a, r)
    | none => matchAlt as cs

/-- Match the source pattern `(january|…|december)\s+\d{1,2}(,\s*\d{4})?` at
the start of `cs` (on lower-cased text), returning the matched characters.
`\s+` is followed by a digit and `\s*` by `\d{4}`, so taking the maximal
whitespace run is equivalent to backtracking; `\d{1,2}` is followed by an
optional group and the end of the pattern, so the maximal (≤ 2) digit run is
the match. -/
def dateTextAt (cs : List Char) : Option (List Char) :=
  match matchAlt monthNames cs with
  | none => none
  | some (m, r) =>
    let sp := r.takeWhile isSpaceChar
    if sp.isEmpty then none else
    let r₁ := r.drop sp.length
    let d := (r₁.takeWhile isDigitChar).take 2
    if d.isEmpty then none else
    let r₂ := r₁.drop d.length
    let opt : List Char :=
      match r₂ with
      | ',' :: r₃ =>
        let sp₂ := r₃.takeWhile isSpaceChar
        let y := ((r₃.drop sp₂.length).takeWhile isDigitChar).take 4
        if y.length = 4 then ',' :: (sp₂ ++ y) else []
      | _ => []
    some (m ++ sp ++ d ++ opt)

/-- `re.search` of the textual date pattern. -/
def searchDateText : List Char → Option (List Char)
  | [] => none
  | c :: rest =>
    match dateTextAt (c :: rest) with
    | some m => some m
    | none => searchDateText rest

/-- Python `str.title` (ASCII model): a letter that follows a non-letter is
upper-cased, a letter that follows a letter is lower-cased. -/
def titleGo : Bool → List Char → List Char
  | _, [] => []
  | prevAlpha, c :: cs =>
    (if c.isAlpha then (if prevAlpha then c.toLower else c.toUpper) else c)
      :: titleGo c.isAlpha cs

/-- Python `str.title` on a character list. -/
def titleCase (cs : List Char) : List Char := titleGo false cs

/-- `extract_date` from `src/main.py`: first the numeric pattern on the raw
text, then the textual month pattern on the lower-cased text (result
title-cased), else nothing. -/
def extract_date (text : String) : Option String :=
  match searchDateNum text.data with
  | some m => some (String.mk m)
  | none =>
    match searchDateText (text.data.map Char.toLower) with
    | some m => some (String.mk (titleCase m))
    | none => none


/- ===================== extract_total =================================== -/

/-- The normalisation at the head of `extract_total`:
`text.lower().replace(",", ".")` (ASCII model of `str.lower`). -/
def normalizeTotal (cs : List Char) : List Char :=
  (cs.map Char.toLower).map (fun c => if c = ',' then '.' else c)

/-- Match the capture group `([0-9]+(\.[0-9]\x7b2\x7d)?)` at the start of
`cs`, returning the captured characters.  `[0-9]+` is followed by `\.`, which
is disjoint from the digits, so the maximal digit run is the only candidate;
the trailing optional group is greedy and the pattern ends after it, so it is
taken exactly when a period and two digits follow. -/
def numGroupAt (cs : List Char) : Option (List Char) :=
  let ds := cs.takeWhile isDigitChar
  if ds.isEmpty then none else
  match cs.drop ds.length with
  | '.' :: a :: b :: _ =>
    if isDigitChar a && isDigitChar b then some (ds ++ ['.', a, b]) else some ds
  | _ => some ds

/-- The tail `[^0-9$]*\$?\s*([0-9]+(\.[0-9]\x7b2\x7d)?)` of every keyword
pattern of `extract_total`, matched after the keyword; returns the capture
group.  The gap class `[^0-9$]*` excludes both digits and the dollar sign, so
after its maximal run the next character is a digit, a dollar sign, or the
end; giving characters back repositions the digit scan on a gap character and
therefore never succeeds, and the same argument applies to `\s*` (whose run
sits inside the gap), so the greedy deterministic reading below coincides
with the backtracking semantics of `re`. -/
def kwTail (cs : List Char) : Option (List Char) :=
  let gap := cs.takeWhile (fun c => !isDigitChar c && !(c = '$'))
  match cs.drop gap.length with
  | '$' :: r₁ => numGroupAt (r₁.drop (r₁.takeWhile isSpaceChar).length)
  | r => numGroupAt r

/-- Match the words of a keyword pattern (literals joined by `\s+`) at the
start of `cs`, returning the remaining input.  Every word begins with a
letter, which is not whitespace, so the maximal `\s+` run is deterministic. -/
def kwWords : List (List Char) → List Char → Option (List Char)
  | [], cs => some cs
  | [w], cs => matchLit w cs
  | w :: ws, cs =>
    match matchLit w cs with
    | none => none
    | some r =>
      let sp := r.takeWhile isSpaceChar
      if sp.isEmpty then none else kwWords ws (r.drop sp.length)

/-- The word boundary `\b` in front of a keyword (whose first character is a
letter): the previous character, if any, must not be a word character. -/
def startBoundary : Option Char → Bool
  | none => true
  | some c => !isWordChar c

/-- The word boundary `\b` after a keyword (whose last character is a
letter): the next character, if any, must not be a word character. -/
def endBoundary : List Char → Bool
  | [] => true
  | c :: _ => !isWordChar c

/-- Attempt the full keyword regex `\bKW\b[^0-9$]*\$?\s*([0-9]+(\.[0-9]\x7b2\x7d)?)`
at one start position, `prev` being the character before that position. -/
def tryPatternAt (words : List (List Char)) (prev : Option Char)
    (cs : List Char) : Option (List Char) :=
  if startBoundary prev then
    match kwWords words cs with
    | some rest => if endBoundary rest then kwTail rest else none
    | none => none
  else none

/-- `re.search` of one keyword pattern: try every start position from the
left (tracking the previous character for the word boundary), return the
first successful capture. -/
def searchKW (words : List (List Char)) : Option Char → List Char → Option (List Char)
  | _, [] => none
  | prev, c :: rest =>
    match tryPatternAt words prev (c :: rest) with
    | some g => some g
    | none => searchKW words (some c) rest

/-- The `total_patterns` list of the source, in source order; each pattern is
its list of literal words (joined by `\s+` in the regex). -/
def total_patterns : List (List (List Char)) :=
  [["total".data],
   ["grand".data, "total".data],
   ["amount".data, "due".data],
   ["balance".data, "due".data],
   ["invoice".data, "total".data]]

/-- The `subtotal_patterns` list of the source, in source order. -/
def subtotal_patterns : List (List (List Char)) :=
  [["subtotal".data],
   ["sub".data, "total".data]]

/-- The keyword loops of `extract_total`: try each pattern with `re.search`,
return the first capture found. -/
def searchPatterns : List (List (List Char)) → List Char → Option (List Char)
  | [], _ => none
  | p :: ps, cs =>
    match searchKW p none cs with
    | some v => some v
    | none => searchPatterns ps cs

/-- The part `\s*([0-9]+\.[0-9]\x7b2\x7d)` of the fallback pattern after the
optional dollar: maximal whitespace run, then the capture group (mandatory
period and two fraction digits here); returns the capture and the number of
characters consumed.  `\s*` and `[0-9]+` determinise exactly as in `kwTail`. -/
def fmCore (r : List Char) : Option (List Char × Nat) :=
  let sp := r.takeWhile isSpaceChar
  let r₁ := r.drop sp.length
  let ds := r₁.takeWhile isDigitChar
  if ds.isEmpty then none else
  match r₁.drop ds.length with
  | '.' :: a :: b :: _ =>
    if isDigitChar a && isDigitChar b then
      some (ds ++ ['.', a, b], sp.length + ds.length + 3)
    else none
  | _ => none

/-- One match attempt of the fallback pattern `\$?\s*([0-9]+\.[0-9]\x7b2\x7d)`
at the start of `cs`.  The optional dollar is greedy; if the number fails
after consuming it, the attempt without the dollar also fails (the dollar
itself is neither whitespace nor a digit), so trying only the dollar branch
is faithful to the backtracking of `re`. -/
def fmAt (cs : List Char) : Option (List Char × Nat) :=
  match cs with
  | '$' :: r => (fmCore r).map (fun p => (p.1, p.2 + 1))
  | r => fmCore r

/-- The left-to-right scan of `re.findall`, structurally recursive on a fuel
bound: at each position collect the capture of a match and resume after the
consumed characters (a match consumes at least four, so the scan advances),
or move one position right.  Each step strictly shrinks the input, so
`fuel = length` (as passed by `findallNums`) is never exhausted. -/
def findallGo : Nat → List Char → List (List Char)
  | 0, _ => []
  | _ + 1, [] => []
  | fuel + 1, c :: rest =>
    match fmAt (c :: rest) with
    | some (g, n) => g :: findallGo fuel (rest.drop (n - 1))
    | none => findallGo fuel rest

/-- `re.findall` of the fallback pattern: collect the capture of every
non-overlapping match, left to right. -/
def findallNums (cs : List Char) : List (List Char) := findallGo cs.length cs

/-- Numeric value of a digit string. -/
def natOfDigits (ds : List Char) : Nat :=
  ds.foldl (fun a c => a * 10 + (c.toNat - '0'.toNat)) 0

/-- Numerator and decimal-exponent of the value Python `float()` assigns to
the strings compared in the fallback tier (digits, optionally a period and
fraction digits): the string denotes `parts.1 / 10 ^ parts.2`. -/
def floatParts (cs : List Char) : Nat × Nat :=
  let ds := cs.takeWhile isDigitChar
  match cs.drop ds.length with
  | '.' :: fs =>
    let fr := fs.takeWhile isDigitChar
    (natOfDigits ds * 10 ^ fr.length + natOfDigits fr, fr.length)
  | _ => (natOfDigits ds, 0)

/-- The value Python `float()` assigns to such a string, modelled as an exact
rational; for the magnitudes the program handles the IEEE double of such a
string orders identically. -/
def floatVal (cs : List Char) : ℚ :=
  ((floatParts cs).1 : ℚ) / (10 : ℚ) ^ (floatParts cs).2

/-- The strict order of the `float` keys, computed by cross-multiplication
(exactly the order of `floatVal`, see `floatLtB_iff`). -/
def floatLtB (x y : List Char) : Bool :=
  (floatParts x).1 * 10 ^ (floatParts y).2 < (floatParts y).1 * 10 ^ (floatParts x).2

/-- Python `max(numbers, key=float)`: fold keeping the current best and
replacing it only on a strictly larger key, so the first element attaining
the maximum is returned; `None` stands for the empty-list case, which the
source guards with `if numbers:`. -/
def pyMax : List (List Char) → Option (List Char)
  | [] => none
  | x :: xs => some (xs.foldl (fun best y => if floatLtB best y then y else best) x)

/-- `extract_total` from `src/main.py`: normalise, then the `total_patterns`
loop, then the `subtotal_patterns` loop, then the maximum of `re.findall`,
else nothing. -/
def extract_total (text : String) : Option String :=
  let t := normalizeTotal text.data
  match searchPatterns total_patterns t with
  | some v => some (String.mk v)
  | none =>
    match searchPatterns subtotal_patterns t with
    | some v => some (String.mk v)
    | none =>
      match pyMax (findallNums t) with
      | some v => some (String.mk v)
      | none => none


/- ===================== spec-side shape predicates ======================= -/

/-- Take exactly `n` digits from the front, returning the remainder. -/
def splitDigits : Nat → List Char → Option (List Char)
  | 0, cs => some cs
  | _ + 1, [] => none
  | n + 1, c :: cs => if isDigitChar c then splitDigits n cs else none

/-- Modelled from the spec's words for the claimed numeric date shape:
1–2 digits, a separator, 1–2 digits, the **same** separator, then **exactly
2 or 4** digits ending the string. -/
def sameSepDateShape (cs : List Char) : Bool :=
  [1, 2].any fun n1 =>
    match splitDigits n1 cs with
    | none => false
    | some r1 =>
      match r1 with
      | s :: r2 =>
        isSepChar s &&
        ([1, 2].any fun n2 =>
          match splitDigits n2 r2 with
          | none => false
          | some r3 =>
            match r3 with
            | c :: r4 =>
              c = s &&
              ([2, 4].any fun n3 =>
                match splitDigits n3 r4 with
                | none => false
                | some r5 => r5.isEmpty)
            | [] => false)
      | [] => false

/-- The numeric-date shape the code actually guarantees (the amendment of
the numeric-date claim): 1–2 digits, a separator, 1–2 digits, a second —
independently chosen — separator, then 2 to 4 digits. -/
def LooseDateDecomp (m : List Char) : Prop :=
  ∃ (d1 : List Char) (s1 : Char) (d2 : List Char) (s2 : Char) (d3 : List Char),
    m = d1 ++ s1 :: (d2 ++ s2 :: d3)
    ∧ d1 ≠ [] ∧ d1.length ≤ 2 ∧ (∀ c ∈ d1, isDigitChar c = true)
    ∧ isSepChar s1 = true
    ∧ d2 ≠ [] ∧ d2.length ≤ 2 ∧ (∀ c ∈ d2, isDigitChar c = true)
    ∧ isSepChar s2 = true
    ∧ 2 ≤ d3.length ∧ d3.length ≤ 4 ∧ (∀ c ∈ d3, isDigitChar c = true)

/-- Modelled from the spec's words for the decimal-string form: one or more
digits, a period, exactly two fractional digits. -/
def specDecimalDD (cs : List Char) : Bool :=
  let ds := cs.takeWhile isDigitChar
  !ds.isEmpty &&
    match cs.drop ds.length with
    | ['.', a, b] => isDigitChar a && isDigitChar b
    | _ => false

/-- The shape actually guaranteed by the keyword tiers (the amendment of the
decimal-string claim): one or more digits, **optionally** followed by a
period and exactly two fractional digits. -/
def specDecimalOpt (cs : List Char) : Bool :=
  let ds := cs.takeWhile isDigitChar
  !ds.isEmpty &&
    match cs.drop ds.length with
    | [] => true
    | ['.', a, b] => isDigitChar a && isDigitChar b
    | _ => false


/- ===================== preprocess_image ================================ -/

/-- OpenCV `cvRound`: round to the nearest integer, ties to even. -/
def cvRound (q : ℚ) : ℤ :=
  let f := ⌊q⌋
  let r := q - (f : ℚ)
  if r < 1 / 2 then f
  else if (1 : ℚ) / 2 < r then f + 1
  else if f % 2 = 0 then f else f + 1

/-- OpenCV `saturate_cast<uchar>` applied to a rounded value. -/
def saturateUchar (z : ℤ) : Nat :=
  if z ≤ 0 then 0 else if (255 : ℤ) ≤ z then 255 else z.toNat

/-- One channel value of `cv2.convertScaleAbs(image, alpha, beta)`:
`saturate_cast<uchar>(cvRound(|p * alpha + beta|))`. -/
def convertScaleAbsPix (alpha beta : ℚ) (p : Nat) : Nat :=
  saturateUchar (cvRound |((p : ℚ)) * alpha + beta|)

/-- Modelled from the spec's words for the claimed stage-1 formula:
`clamp(p * contrast + brightness, 0, 255)` (same rounding, no absolute
value). -/
def stage1ClampSpec (alpha beta : ℚ) (p : Nat) : Nat :=
  (max 0 (min 255 (cvRound ((p : ℚ) * alpha + beta)))).toNat

/-- A decoded colour image: rows of BGR channel triples (values 0–255). -/
structure BGRImage where
  rows : List (List (Nat × Nat × Nat))

/-- A single-channel image: rows of grey values. -/
structure GrayImage where
  rows : List (List Nat)

/-- `cv2.convertScaleAbs` on a colour image: the per-pixel map applied to
every channel. -/
def convertScaleAbsImg (alpha beta : ℚ) (img : BGRImage) : BGRImage :=
  ⟨img.rows.map (List.map (fun p =>
    (convertScaleAbsPix alpha beta p.1,
     convertScaleAbsPix alpha beta p.2.1,
     convertScaleAbsPix alpha beta p.2.2)))⟩

/-- The optional user smoothing stage of `preprocess_image`:
`if blur > 0: GaussianBlur(..., (blur*2+1, blur*2+1), 0)`, the Gaussian kernel
being an opaque OpenCV collaborator taking the kernel size. -/
def smoothStage (gaussianBlur : Int → BGRImage → BGRImage) (blur : Int)
    (img : BGRImage) : BGRImage :=
  if blur > 0 then gaussianBlur (blur * 2 + 1) img else img

/-- `preprocess_image` from `src/main.py`.  The OpenCV collaborators —
the colour Gaussian blur, the BGR-to-grey conversion, the grey Gaussian blur
used by the fixed 5×5 denoise, and CLAHE — are opaque and passed as
parameters; `none` for the image models a failed `cv2.imread` decode, in
which case the function returns `None`. -/
def preprocess_image (gaussianBlur : Int → BGRImage → BGRImage)
    (cvtColor : BGRImage → GrayImage)
    (gaussianBlurG : Int → GrayImage → GrayImage)
    (clahe : GrayImage → GrayImage)
    (contrast brightness : ℚ) (blur : Int)
    (image : Option BGRImage) : Option GrayImage :=
  match image with
  | none => none
  | some img =>
    let adjusted := convertScaleAbsImg contrast brightness img
    let adjusted := smoothStage gaussianBlur blur adjusted
    let gray := cvtColor adjusted
    let denoised := gaussianBlurG 5 gray
    some (clahe denoised)


/- ===================== the store ======================================= -/

/-- One persisted record, as built by the analyze route. -/
structure InvoiceRecord where
  filename : String
  date : String
  total : String
  note : String
deriving DecidableEq

/-- The state of the JSON store file: absent, present with content that
`json.load` cannot parse, or present with a parsed record array. -/
inductive StoreContent where
  | absent : StoreContent
  | corrupt (raw : String) : StoreContent
  | good (records : List InvoiceRecord) : StoreContent
deriving DecidableEq

/-- `load_saved_data` from `src/main.py`: a missing file and a `json.load`
failure both yield the empty list. -/
def load_saved_data : StoreContent → List InvoiceRecord
  | .absent => []
  | .corrupt _ => []
  | .good rs => rs

/-- `save_invoice_data` from `src/main.py`: load the existing records, extend
with the new entries, rewrite the whole file as one JSON array. -/
def save_invoice_data (store : StoreContent) (new_entries : List InvoiceRecord) :
    StoreContent :=
  .good (load_saved_data store ++ new_entries)

/- ===================== the analyze route =============================== -/

/-- The body of the per-image loop of the `/analyze` route for one image:
preprocess (`none` models a decode failure, skipping the image), run the
opaque OCR collaborator, extract both fields, and build a record only when
both are found (`if date and total:`; both regex results are non-empty
strings, so Python truthiness is `isSome`). -/
def processOne {I P : Type} (preprocessF : I → Option P)
    (extractTextF : P → String) (filenameOf : I → String) (img : I) :
    Option InvoiceRecord :=
  match preprocessF img with
  | none => none
  | some processed =>
    let text := extractTextF processed
    match extract_date text, extract_total text with
    | some d, some t => some ⟨filenameOf img, d, t, text.trim⟩
    | _, _ => none

/-- The `for img in images:` loop of the `/analyze` route, accumulating the
`results` list in input order. -/
def analyzeLoop {I P : Type} (preprocessF : I → Option P)
    (extractTextF : P → String) (filenameOf : I → String) :
    List I → List InvoiceRecord → List InvoiceRecord
  | [], acc => acc
  | img :: rest, acc =>
    match processOne preprocessF extractTextF filenameOf img with
    | none => analyzeLoop preprocessF extractTextF filenameOf rest acc
    | some r => analyzeLoop preprocessF extractTextF filenameOf rest (acc ++ [r])

/-- The `/analyze` route: process every image in order, then persist the
results only when at least one record was produced (`if results:`), and
return the results. -/
def analyze_invoice {I P : Type} (preprocessF : I → Option P)
    (extractTextF : P → String) (filenameOf : I → String)
    (images : List I) (store : StoreContent) :
    List InvoiceRecord × StoreContent :=
  let results := analyzeLoop preprocessF extractTextF filenameOf images []
  if results.isEmpty then (results, store)
  else (results, save_invoice_data store results)

/- ======================================================================= -/
/- ===================== theorems ======================================== -/
/- ======================================================================= -/

/- ---- helper lemmas ---- -/

theorem analyzeLoop_eq {I P : Type} (pre : I → Option P) (ext : P → String)
    (fn : I → String) (imgs : List I) :
    ∀ acc, analyzeLoop pre ext fn imgs acc
      = acc ++ imgs.filterMap (processOne pre ext fn) := by
  induction imgs with
  | nil => intro acc; simp [analyzeLoop]
  | cons img rest ih =>
    intro acc
    cases h : processOne pre ext fn img with
    | none => simp [analyzeLoop, h, ih]
    | some r => simp [analyzeLoop, h, ih]

theorem analyze_results_eq {I P : Type} (pre : I → Option P) (ext : P → String)
    (fn : I → String) (imgs : List I) (store : StoreContent) :
    (analyze_invoice pre ext fn imgs store).1
      = imgs.filterMap (processOne pre ext fn) := by
  unfold analyze_invoice
  rw [analyzeLoop_eq]
  dsimp only
  split <;> simp

theorem load_foldl_save (batches : List (List InvoiceRecord)) :
    ∀ rs, load_saved_data (batches.foldl save_invoice_data (.good rs))
      = rs ++ batches.flatten := by
  induction batches with
  | nil => intro rs; simp [load_saved_data]
  | cons b bs ih =>
    intro rs
    simp only [List.foldl_cons, List.flatten_cons]
    rw [show save_invoice_data (.good rs) b = .good (rs ++ b) from rfl, ih,
      List.append_assoc]

/- ---- C3 ---- -/

/-- C3: starting from a well-formed store holding `rs`, any sequence of
sequential `save_invoice_data` calls concatenates the appended batches after
`rs` in order, losing nothing; in particular appending `[a]`, then `[b]`,
then `[c]` to an empty (absent) store makes `load_saved_data` return exactly
`[a, b, c]`. -/
theorem append_preserves_and_orders_records :
    (∀ (rs : List InvoiceRecord) (batches : List (List InvoiceRecord)),
      load_saved_data (batches.foldl save_invoice_data (.good rs))
        = rs ++ batches.flatten)
    ∧ (∀ a b c : InvoiceRecord,
      load_saved_data
        (save_invoice_data (save_invoice_data (save_invoice_data .absent [a]) [b]) [c])
        = [a, b, c]) := by
  refine ⟨fun rs batches => load_foldl_save batches rs, fun a b c => rfl⟩

/- ---- C7 ---- -/

/-- C7: `load_saved_data` never fails — an absent store file and a store file
whose content cannot be parsed both yield the empty record list. -/
theorem load_never_fails :
    load_saved_data .absent = []
    ∧ ∀ raw : String, load_saved_data (.corrupt raw) = [] :=
  ⟨rfl, fun _ => rfl⟩

/- ---- C6 ---- -/

/-- C6: a batch is processed strictly in input order — the result list is the
in-order `filterMap` of the per-image processing, so a decode failure on one
image only omits that image (no record, no store write for it) and the rest
are still processed; a 3-image batch whose second image fails to decode
yields the records of images 1 and 3 only, hence at most 2 results, and the
request is never aborted. -/
theorem batch_order_and_skip :
    (∀ (I P : Type) (pre : I → Option P) (ext : P → String) (fn : I → String)
      (imgs : List I) (store : StoreContent),
      (analyze_invoice pre ext fn imgs store).1
        = imgs.filterMap (processOne pre ext fn))
    ∧ (∀ (I P : Type) (pre : I → Option P) (ext : P → String) (fn : I → String)
      (i1 i2 i3 : I) (store : StoreContent), pre i2 = none →
      (analyze_invoice pre ext fn [i1, i2, i3] store).1
        = [i1, i3].filterMap (processOne pre ext fn)
      ∧ (analyze_invoice pre ext fn [i1, i2, i3] store).1.length ≤ 2) := by
  refine ⟨fun I P pre ext fn imgs store => analyze_results_eq pre ext fn imgs store,
    fun I P pre ext fn i1 i2 i3 store h2 => ?_⟩
  have hnone : processOne pre ext fn i2 = none := by
    unfold processOne
    rw [h2]
  rw [analyze_results_eq]
  constructor
  · simp [List.filterMap_cons, hnone]
  · calc ([i1, i2, i3].filterMap (processOne pre ext fn)).length
        = ([i1, i3].filterMap (processOne pre ext fn)).length := by
          simp [List.filterMap_cons, hnone]
    _ ≤ ([i1, i3] : List I).length := List.length_filterMap_le _ _
    _ = 2 := rfl

/-- Witness for C6 at a concrete batch: image 2 fails to decode, the others
decode but yield no fields, so the result list is empty and bounded by 2. -/
theorem batch_order_and_skip_witness :
    (analyze_invoice (fun n : Nat => if n = 2 then none else some ())
        (fun _ : Unit => "") (fun _ => "f") [1, 2, 3] .absent).1
      = [1, 3].filterMap
          (processOne (fun n : Nat => if n = 2 then none else some ())
            (fun _ : Unit => "") (fun _ => "f"))
    ∧ (analyze_invoice (fun n : Nat => if n = 2 then none else some ())
        (fun _ : Unit => "") (fun _ => "f") [1, 2, 3] .absent).1.length ≤ 2 :=
  batch_order_and_skip.2 Nat Unit _ _ _ 1 2 3 .absent rfl

/- ---- C8 ---- -/

/-- C8: for every blur radius `b > 0` the user smoothing stage invokes the
Gaussian kernel with the odd size `2*b + 1`, and for `b = 0` the stage is the
identity, so the image entering the grayscale stage is exactly the stage-1
output. -/
theorem blur_kernel_odd_and_zero_noop :
    (∀ b : Int, 0 < b →
      (∀ (gauss : Int → BGRImage → BGRImage) (img : BGRImage),
        smoothStage gauss b img = gauss (b * 2 + 1) img)
      ∧ Odd (b * 2 + 1))
    ∧ (∀ (gauss : Int → BGRImage → BGRImage) (img : BGRImage),
      smoothStage gauss 0 img = img)
    ∧ (∀ (gauss : Int → BGRImage → BGRImage) (cvt : BGRImage → GrayImage)
      (gaussG : Int → GrayImage → GrayImage) (clahe : GrayImage → GrayImage)
      (contrast brightness : ℚ) (img : BGRImage),
      preprocess_image gauss cvt gaussG clahe contrast brightness 0 (some img)
        = some (clahe (gaussG 5 (cvt (convertScaleAbsImg contrast brightness img))))) := by
  refine ⟨fun b hb => ⟨fun gauss img => ?_, ⟨b, by ring⟩⟩,
    fun gauss img => ?_, fun gauss cvt gaussG clahe c br img => ?_⟩
  · simp [smoothStage, hb]
  · simp [smoothStage]
  · simp [preprocess_image, smoothStage]

/-- Witness for C8 at blur radius 1: the kernel size is 3 and odd. -/
theorem blur_kernel_odd_and_zero_noop_witness :
    smoothStage (fun _ i => i) 1 ⟨[]⟩ = (fun _ i => i) ((1 : Int) * 2 + 1) ⟨[]⟩
    ∧ Odd ((1 : Int) * 2 + 1) :=
  ⟨(blur_kernel_odd_and_zero_noop.1 1 one_pos).1 _ _,
   (blur_kernel_odd_and_zero_noop.1 1 one_pos).2⟩

/- ---- tier structure of extract_total ---- -/

theorem extract_total_tier1 (text : String) (v : List Char)
    (h : searchPatterns total_patterns (normalizeTotal text.data) = some v) :
    extract_total text = some (String.mk v) := by
  unfold extract_total
  dsimp only
  rw [h]

theorem extract_total_tier2 (text : String) (v : List Char)
    (h1 : searchPatterns total_patterns (normalizeTotal text.data) = none)
    (h2 : searchPatterns subtotal_patterns (normalizeTotal text.data) = some v) :
    extract_total text = some (String.mk v) := by
  unfold extract_total
  dsimp only
  rw [h1, h2]

theorem extract_total_tier3 (text : String)
    (h1 : searchPatterns total_patterns (normalizeTotal text.data) = none)
    (h2 : searchPatterns subtotal_patterns (normalizeTotal text.data) = none) :
    extract_total text
      = Option.map String.mk (pyMax (findallNums (normalizeTotal text.data))) := by
  unfold extract_total
  dsimp only
  rw [h1, h2]
  cases pyMax (findallNums (normalizeTotal text.data)) <;> rfl

/- ---- C1 ---- -/

/-- C1: `extract_total` first lower-cases and maps commas to periods, then
evaluates the tiers with first-success short-circuit: a capture of the
total-keyword tier (patterns tried in the fixed source order `total`,
`grand total`, `amount due`, `balance due`, `invoice total`) is always the
result, the subtotal tier is consulted only when the first tier fails, and
the numeric-maximum fallback only after both; in particular the spec's
example returns the total-anchored `45.50`, not the subtotal-anchored
`10.00`. -/
theorem total_keyword_tier_priority :
    (∀ (text : String) (v : List Char),
      searchPatterns total_patterns (normalizeTotal text.data) = some v →
      extract_total text = some (String.mk v))
    ∧ (∀ (text : String) (v : List Char),
      searchPatterns total_patterns (normalizeTotal text.data) = none →
      searchPatterns subtotal_patterns (normalizeTotal text.data) = some v →
      extract_total text = some (String.mk v))
    ∧ (∀ text : String,
      searchPatterns total_patterns (normalizeTotal text.data) = none →
      searchPatterns subtotal_patterns (normalizeTotal text.data) = none →
      extract_total text
        = Option.map String.mk (pyMax (findallNums (normalizeTotal text.data))))
    ∧ extract_total "Subtotal: 10.00 Total Due: $45.50" = some "45.50" :=
  ⟨extract_total_tier1, extract_total_tier2, extract_total_tier3, by decide⟩

/-- Witness for C1: the total-keyword tier captures `45.50` on the spec's
example text, so `extract_total` returns it. -/
theorem total_keyword_tier_priority_witness :
    extract_total "Subtotal: 10.00 Total Due: $45.50"
      = some (String.mk "45.50".data) :=
  total_keyword_tier_priority.1 "Subtotal: 10.00 Total Due: $45.50"
    "45.50".data (by decide)

/- ---- takeWhile helpers ---- -/

theorem takeWhile_eq_self_of_all {p : Char → Bool} :
    ∀ {l : List Char}, (∀ x ∈ l, p x = true) → l.takeWhile p = l := by
  intro l
  induction l with
  | nil => intro _; rfl
  | cons c cs ih =>
    intro h
    rw [List.takeWhile_cons, h c (by simp)]
    simp only [ite_true]
    rw [ih fun x hx => h x (by simp [hx])]

theorem takeWhile_append_of_not {p : Char → Bool} {c : Char} (hc : p c = false) :
    ∀ (l₁ l₂ : List Char), (∀ x ∈ l₁, p x = true) →
      (l₁ ++ c :: l₂).takeWhile p = l₁ := by
  intro l₁
  induction l₁ with
  | nil => intro l₂ _; simp [List.takeWhile_cons, hc]
  | cons a l ih =>
    intro l₂ h
    simp only [List.cons_append, List.takeWhile_cons, h a (by simp), ite_true]
    rw [ih l₂ fun x hx => h x (by simp [hx])]

theorem takeWhile_append_drop_eq (p : Char → Bool) (l : List Char) :
    l.takeWhile p ++ l.drop (l.takeWhile p).length = l := by
  obtain ⟨t, ht⟩ := List.takeWhile_prefix (l := l) (p := p)
  have hd := List.drop_left (l.takeWhile p) t
  rw [ht] at hd
  rw [hd, ht]

/- ---- shape of the keyword-tier captures ---- -/

theorem specDecimalOpt_digits {ds : List Char} (hne : ds.isEmpty = false)
    (hall : ∀ x ∈ ds, isDigitChar x = true) : specDecimalOpt ds = true := by
  unfold specDecimalOpt
  rw [takeWhile_eq_self_of_all hall]
  dsimp only
  rw [List.drop_length]
  simp [hne]

theorem specDecimalOpt_dd {ds : List Char} {a b : Char} (hne : ds.isEmpty = false)
    (hall : ∀ x ∈ ds, isDigitChar x = true)
    (ha : isDigitChar a = true) (hb : isDigitChar b = true) :
    specDecimalOpt (ds ++ ['.', a, b]) = true := by
  unfold specDecimalOpt
  rw [takeWhile_append_of_not (by decide) ds [a, b] hall]
  dsimp only
  rw [List.drop_left]
  simp [hne, ha, hb]

theorem specDecimalDD_dd {ds : List Char} {a b : Char} (hne : ds.isEmpty = false)
    (hall : ∀ x ∈ ds, isDigitChar x = true)
    (ha : isDigitChar a = true) (hb : isDigitChar b = true) :
    specDecimalDD (ds ++ ['.', a, b]) = true := by
  unfold specDecimalDD
  rw [takeWhile_append_of_not (by decide) ds [a, b] hall]
  dsimp only
  rw [List.drop_left]
  simp [hne, ha, hb]

theorem numGroupAt_shape {cs g : List Char} (h : numGroupAt cs = some g) :
    specDecimalOpt g = true := by
  have hall : ∀ x ∈ cs.takeWhile isDigitChar, isDigitChar x = true :=
    fun x hx => List.mem_takeWhile_imp hx
  simp only [numGroupAt] at h
  split at h
  · exact absurd h (by simp)
  next hne =>
    rw [Bool.not_eq_true] at hne
    split at h
    next a b rest heq =>
      split at h
      next hdig =>
        cases h
        rw [Bool.and_eq_true] at hdig
        exact specDecimalOpt_dd hne hall hdig.1 hdig.2
      next =>
        cases h
        exact specDecimalOpt_digits hne hall
    next =>
      cases h
      exact specDecimalOpt_digits hne hall

theorem kwTail_shape {cs g : List Char} (h : kwTail cs = some g) :
    ∃ u, numGroupAt u = some g := by
  simp only [kwTail] at h
  split at h
  · exact ⟨_, h⟩
  · exact ⟨_, h⟩

theorem tryPatternAt_shape {words : List (List Char)} {prev : Option Char}
    {cs g : List Char} (h : tryPatternAt words prev cs = some g) :
    ∃ u, numGroupAt u = some g := by
  simp only [tryPatternAt] at h
  split at h
  · split at h
    next rest heq =>
      split at h
      · exact kwTail_shape h
      · exact absurd h (by simp)
    next => exact absurd h (by simp)
  · exact absurd h (by simp)

theorem searchKW_shape {words : List (List Char)} :
    ∀ {cs : List Char} {prev : Option Char} {g : List Char},
      searchKW words prev cs = some g → ∃ u, numGroupAt u = some g := by
  intro cs
  induction cs with
  | nil => intro prev g h; simp [searchKW] at h
  | cons c rest ih =>
    intro prev g h
    simp only [searchKW] at h
    split at h
    next v heq =>
      cases h
      exact tryPatternAt_shape heq
    next => exact ih h

theorem searchPatterns_shape :
    ∀ {ps : List (List (List Char))} {cs g : List Char},
      searchPatterns ps cs = some g → ∃ u, numGroupAt u = some g := by
  intro ps
  induction ps with
  | nil => intro cs g h; simp [searchPatterns] at h
  | cons p ps ih =>
    intro cs g h
    simp only [searchPatterns] at h
    split at h
    next v heq =>
      cases h
      exact searchKW_shape heq
    next => exact ih h

/- ---- shape and position of the fallback captures ---- -/

theorem fmCore_shape {r : List Char} {g : List Char} {n : Nat}
    (h : fmCore r = some (g, n)) :
    specDecimalDD g = true ∧ ∃ pre post, r = pre ++ g ++ post := by
  have hsp := takeWhile_append_drop_eq isSpaceChar r
  have hds := takeWhile_append_drop_eq isDigitChar
    (r.drop (r.takeWhile isSpaceChar).length)
  have hall : ∀ x ∈ (r.drop (r.takeWhile isSpaceChar).length).takeWhile isDigitChar,
      isDigitChar x = true := fun x hx => List.mem_takeWhile_imp hx
  simp only [fmCore] at h
  split at h
  · exact absurd h (by simp)
  next hne =>
    rw [Bool.not_eq_true] at hne
    split at h
    next a b rest heq =>
      split at h
      next hdig =>
        rw [Option.some.injEq, Prod.mk.injEq] at h
        obtain ⟨hg, -⟩ := h
        rw [Bool.and_eq_true] at hdig
        subst hg
        refine ⟨specDecimalDD_dd hne hall hdig.1 hdig.2,
          r.takeWhile isSpaceChar, rest, ?_⟩
        rw [heq] at hds
        calc r = r.takeWhile isSpaceChar ++ r.drop (r.takeWhile isSpaceChar).length := hsp.symm
        _ = r.takeWhile isSpaceChar
              ++ ((r.drop (r.takeWhile isSpaceChar).length).takeWhile isDigitChar
                ++ ('.' :: a :: b :: rest)) := by rw [hds]
        _ = (r.takeWhile isSpaceChar
              ++ ((r.drop (r.takeWhile isSpaceChar).length).takeWhile isDigitChar
                ++ ['.', a, b])) ++ rest := by simp
      next => exact absurd h (by simp)
    next => exact absurd h (by simp)

theorem fmAt_shape {cs : List Char} {g : List Char} {n : Nat}
    (h : fmAt cs = some (g, n)) :
    specDecimalDD g = true ∧ ∃ pre post, cs = pre ++ g ++ post := by
  simp only [fmAt] at h
  split at h
  next r =>
    rw [Option.map_eq_some'] at h
    obtain ⟨⟨g', n'⟩, hcore, hmk⟩ := h
    simp only [Prod.mk.injEq] at hmk
    obtain ⟨hg, -⟩ := hmk
    subst hg
    obtain ⟨hs, pre, post, hdec⟩ := fmCore_shape hcore
    exact ⟨hs, '$' :: pre, post, by simp [hdec]⟩
  next => exact fmCore_shape h

theorem findallGo_mem :
    ∀ (fuel : Nat) (cs x : List Char), x ∈ findallGo fuel cs →
      specDecimalDD x = true ∧ ∃ pre post, cs = pre ++ x ++ post := by
  intro fuel
  induction fuel with
  | zero => intro cs x hx; simp [findallGo] at hx
  | succ fuel ih =>
    intro cs x hx
    cases cs with
    | nil => simp [findallGo] at hx
    | cons c rest =>
      simp only [findallGo] at hx
      cases hfm : fmAt (c :: rest) with
      | some gn =>
        obtain ⟨g, n⟩ := gn
        rw [hfm] at hx
        simp only [List.mem_cons] at hx
        cases hx with
        | inl hxg =>
          subst hxg
          exact fmAt_shape hfm
        | inr hmem =>
          obtain ⟨hs, pre, post, hdec⟩ := ih (rest.drop (n - 1)) x hmem
          refine ⟨hs, c :: (rest.take (n - 1) ++ pre), post, ?_⟩
          calc c :: rest
              = c :: (rest.take (n - 1) ++ rest.drop (n - 1)) := by
                rw [List.take_append_drop]
          _ = c :: (rest.take (n - 1) ++ (pre ++ x ++ post)) := by rw [hdec]
          _ = (c :: (rest.take (n - 1) ++ pre)) ++ x ++ post := by simp
      | none =>
        rw [hfm] at hx
        obtain ⟨hs, pre, post, hdec⟩ := ih rest x hx
        exact ⟨hs, c :: pre, post, by simp [hdec]⟩

theorem findallNums_mem {cs x : List Char} (hx : x ∈ findallNums cs) :
    specDecimalDD x = true ∧ ∃ pre post, cs = pre ++ x ++ post :=
  findallGo_mem cs.length cs x hx

/- ---- Python max semantics ---- -/

theorem floatLtB_iff (x y : List Char) :
    floatLtB x y = true ↔ floatVal x < floatVal y := by
  unfold floatLtB floatVal
  rw [div_lt_div_iff₀ (by positivity) (by positivity), decide_eq_true_eq]
  constructor
  · intro h
    exact_mod_cast h
  · intro h
    exact_mod_cast h

theorem decomp_head_le {b r : List Char} {ys p q : List (List Char)}
    (h : b :: ys = p ++ r :: q)
    (hp : ∀ x ∈ p, floatVal x < floatVal r) : floatVal b ≤ floatVal r := by
  cases p with
  | nil =>
    rw [List.nil_append] at h
    injection h with h1 _
    rw [h1]
  | cons a p' =>
    rw [List.cons_append] at h
    injection h with h1 _
    rw [h1]
    exact le_of_lt (hp a (by simp))

theorem foldl_pyMax_decomp :
    ∀ (xs : List (List Char)) (b : List Char),
      ∃ p q, b :: xs
          = p ++ (xs.foldl (fun best y => if floatLtB best y then y else best) b) :: q
        ∧ (∀ x ∈ p, floatVal x
            < floatVal (xs.foldl (fun best y => if floatLtB best y then y else best) b))
        ∧ (∀ x ∈ q, floatVal x
            ≤ floatVal (xs.foldl (fun best y => if floatLtB best y then y else best) b)) := by
  intro xs
  induction xs with
  | nil => intro b; exact ⟨[], [], rfl, by simp, by simp⟩
  | cons y ys ih =>
    intro b
    simp only [List.foldl_cons]
    by_cases hby : floatLtB b y = true
    · rw [if_pos hby]
      have hbylt : floatVal b < floatVal y := (floatLtB_iff b y).1 hby
      obtain ⟨p', q', hdec, hp', hq'⟩ := ih y
      have hyr : floatVal y
          ≤ floatVal (ys.foldl (fun best z => if floatLtB best z then z else best) y) :=
        decomp_head_le hdec hp'
      refine ⟨b :: p', q', by rw [List.cons_append, ← hdec], ?_, hq'⟩
      intro x hx
      rcases List.mem_cons.1 hx with hxb | hxp
      · rw [hxb]; exact lt_of_lt_of_le hbylt hyr
      · exact hp' x hxp
    · rw [if_neg hby]
      have hyb : floatVal y ≤ floatVal b := by
        by_contra hlt
        rw [not_le] at hlt
        exact hby ((floatLtB_iff b y).2 hlt)
      obtain ⟨p', q', hdec, hp', hq'⟩ := ih b
      set r := ys.foldl (fun best y => if floatLtB best y then y else best) b with hr
      cases p' with
      | nil =>
        rw [List.nil_append] at hdec
        injection hdec with h1 h2
        refine ⟨[], y :: ys, ?_, by simp, ?_⟩
        · rw [List.nil_append, ← h1]
        · intro x hx
          rcases List.mem_cons.1 hx with hxy | hxs
          · rw [hxy, ← h1]
            exact hyb
          · rw [h2] at hxs
            exact hq' x hxs
      | cons a p'' =>
        rw [List.cons_append] at hdec
        injection hdec with h1 h2
        rw [← h1] at hp'
        have hbr : floatVal b < floatVal r := hp' b (by simp)
        refine ⟨b :: y :: p'', q', ?_, ?_, hq'⟩
        · rw [h2]
          simp
        · intro x hx
          rcases List.mem_cons.1 hx with hxb | hx'
          · rw [hxb]; exact hbr
          · rcases List.mem_cons.1 hx' with hxy | hxp
            · rw [hxy]; exact lt_of_le_of_lt hyb hbr
            · exact hp' x (by simp [hxp])

theorem pyMax_first_max {l : List (List Char)} {v : List Char}
    (h : pyMax l = some v) :
    ∃ p q, l = p ++ v :: q ∧ (∀ x ∈ p, floatVal x < floatVal v)
      ∧ (∀ x ∈ q, floatVal x ≤ floatVal v) := by
  cases l with
  | nil => simp [pyMax] at h
  | cons x xs =>
    simp only [pyMax, Option.some.injEq] at h
    rw [← h]
    exact foldl_pyMax_decomp xs x

theorem pyMax_mem_max {l : List (List Char)} {v : List Char}
    (h : pyMax l = some v) :
    v ∈ l ∧ ∀ x ∈ l, floatVal x ≤ floatVal v := by
  obtain ⟨p, q, hdec, hp, hq⟩ := pyMax_first_max h
  rw [hdec]
  refine ⟨by simp, ?_⟩
  intro x hx
  rcases List.mem_append.1 hx with hxp | hxvq
  · exact le_of_lt (hp x hxp)
  · rcases List.mem_cons.1 hxvq with hxv | hxq
    · rw [hxv]
    · exact hq x hxq

theorem specDecimalOpt_of_dd {cs : List Char} (h : specDecimalDD cs = true) :
    specDecimalOpt cs = true := by
  unfold specDecimalDD at h
  unfold specDecimalOpt
  rw [Bool.and_eq_true] at h ⊢
  refine ⟨h.1, ?_⟩
  have h2 := h.2
  split at h2
  next a b heq => rw [heq]; exact h2
  next => exact absurd h2 (by simp)

/- ---- C9 ---- -/

/-- C9 (amended): every non-null result of `extract_total` is one or more
digits **optionally** followed by a period and exactly two fractional digits
(the keyword tiers make the fractional part optional, so e.g. `"45"` can be
returned); the numeric-maximum fallback alone always returns the full
`digits.DD` form. -/
theorem extract_total_result_shape :
    (∀ (text v : String), extract_total text = some v →
      specDecimalOpt v.data = true)
    ∧ (∀ (text v : String),
      searchPatterns total_patterns (normalizeTotal text.data) = none →
      searchPatterns subtotal_patterns (normalizeTotal text.data) = none →
      extract_total text = some v → specDecimalDD v.data = true) := by
  constructor
  · intro text v h
    unfold extract_total at h
    dsimp only at h
    split at h
    next w heq =>
      rw [Option.some.injEq] at h
      rw [← h]
      obtain ⟨u, hu⟩ := searchPatterns_shape heq
      exact numGroupAt_shape hu
    next =>
      split at h
      next w heq =>
        rw [Option.some.injEq] at h
        rw [← h]
        obtain ⟨u, hu⟩ := searchPatterns_shape heq
        exact numGroupAt_shape hu
      next =>
        split at h
        next w heq =>
          rw [Option.some.injEq] at h
          rw [← h]
          exact specDecimalOpt_of_dd
            (findallNums_mem (pyMax_mem_max heq).1).1
        next => exact absurd h (by simp)
  · intro text v h1 h2 h
    rw [extract_total_tier3 text h1 h2] at h
    rw [Option.map_eq_some'] at h
    obtain ⟨w, hw, hmk⟩ := h
    rw [← hmk]
    exact (findallNums_mem (pyMax_mem_max hw).1).1

/-- Witness for C9 on `"total 45"`: the returned `"45"` has the optional
shape. -/
theorem extract_total_result_shape_witness :
    specDecimalOpt (String.data "45") = true :=
  extract_total_result_shape.1 "total 45" "45" (by decide)

/-- Counterexample to C9 as stated: on `"total 45"` the keyword tier returns
`"45"`, which is not of the form `digits.DD`. -/
theorem extract_total_result_shape_counterexample :
    extract_total "total 45" = some "45"
    ∧ specDecimalDD (String.data "45") = false :=
  ⟨by decide, by decide⟩

/- ---- C5 ---- -/

/-- C5: when both keyword tiers fail, `extract_total` returns the maximum (by
numeric value) of the captures collected by the fallback scan; every
collected capture is a `digits.DD` substring occurring in the normalized
text, so when the text contains no such number the scan is empty and the
result is nothing-found; the two spec examples evaluate as stated. -/
theorem fallback_returns_numeric_maximum :
    (∀ text : String,
      searchPatterns total_patterns (normalizeTotal text.data) = none →
      searchPatterns subtotal_patterns (normalizeTotal text.data) = none →
      extract_total text
        = Option.map String.mk (pyMax (findallNums (normalizeTotal text.data))))
    ∧ (∀ (l : List (List Char)) (v : List Char), pyMax l = some v →
      v ∈ l ∧ ∀ x ∈ l, floatVal x ≤ floatVal v)
    ∧ (∀ cs x : List Char, x ∈ findallNums cs →
      specDecimalDD x = true ∧ ∃ pre post, cs = pre ++ x ++ post)
    ∧ extract_total "line 12.00 line 99.99 line 5.00" = some "99.99"
    ∧ extract_total "no numbers here" = none :=
  ⟨extract_total_tier3, fun _ _ h => pyMax_mem_max h,
   fun _ _ hx => findallNums_mem hx, by decide, by decide⟩

/-- Witness for C5: `"99.99"` is collected by the fallback scan of the first
example text, has the `digits.DD` shape and occurs in the text. -/
theorem fallback_returns_numeric_maximum_witness :
    specDecimalDD (String.data "99.99") = true
    ∧ ∃ pre post,
      normalizeTotal (String.data "line 12.00 line 99.99 line 5.00")
        = pre ++ (String.data "99.99") ++ post :=
  fallback_returns_numeric_maximum.2.2.1
    (normalizeTotal (String.data "line 12.00 line 99.99 line 5.00"))
    (String.data "99.99") (by decide)

/- ---- C10 ---- -/

/-- C10: Python `max` keeps the current best on ties, so among equal-valued
captures the first collected — the one matched earliest in the normalized
text by the left-to-right fallback scan — is returned: the result splits the
collected list into strictly smaller values before it and no larger values
after it; deterministic, as the concrete `045.50` / `45.50` tie shows. -/
theorem fallback_tie_breaks_earliest :
    (∀ (l : List (List Char)) (v : List Char), pyMax l = some v →
      ∃ p q, l = p ++ v :: q ∧ (∀ x ∈ p, floatVal x < floatVal v)
        ∧ (∀ x ∈ q, floatVal x ≤ floatVal v))
    ∧ (∀ text : String,
      searchPatterns total_patterns (normalizeTotal text.data) = none →
      searchPatterns subtotal_patterns (normalizeTotal text.data) = none →
      extract_total text
        = Option.map String.mk (pyMax (findallNums (normalizeTotal text.data))))
    ∧ extract_total "line 045.50 line 45.50" = some "045.50" :=
  ⟨fun _ _ h => pyMax_first_max h, extract_total_tier3, by decide⟩

/-- Witness for C10 on the concrete tie: `pyMax` returns the earlier
`045.50`, with nothing strictly smaller before it and nothing larger after. -/
theorem fallback_tie_breaks_earliest_witness :
    ∃ p q, [String.data "045.50", String.data "45.50"]
        = p ++ (String.data "045.50") :: q
      ∧ (∀ x ∈ p, floatVal x < floatVal (String.data "045.50"))
      ∧ (∀ x ∈ q, floatVal x ≤ floatVal (String.data "045.50")) :=
  fallback_tie_breaks_earliest.1 [String.data "045.50", String.data "45.50"]
    (String.data "045.50") (by decide)

/- ---- shape of the numeric date matches ---- -/

theorem dateNumAt_decomp {cs m : List Char} (h : dateNumAt cs = some m) :
    LooseDateDecomp m := by
  have hd1 : ∀ c ∈ (cs.takeWhile isDigitChar).take 2, isDigitChar c = true :=
    fun c hc => List.mem_takeWhile_imp (List.take_subset 2 _ hc)
  simp only [dateNumAt] at h
  split at h
  · exact absurd h (by simp)
  next hne1 =>
    rw [Bool.not_eq_true, List.isEmpty_eq_false] at hne1
    split at h
    next s1 cs₁ heq1 =>
      split at h
      next hsep1 =>
        have hd2 : ∀ c ∈ (cs₁.takeWhile isDigitChar).take 2, isDigitChar c = true :=
          fun c hc => List.mem_takeWhile_imp (List.take_subset 2 _ hc)
        split at h
        · exact absurd h (by simp)
        next hne2 =>
          rw [Bool.not_eq_true, List.isEmpty_eq_false] at hne2
          split at h
          next s2 cs₂ heq2 =>
            split at h
            next hsep2 =>
              have hd3 : ∀ c ∈ (cs₂.takeWhile isDigitChar).take 4, isDigitChar c = true :=
                fun c hc => List.mem_takeWhile_imp (List.take_subset 4 _ hc)
              split at h
              next hlen3 =>
                rw [Option.some.injEq] at h
                exact ⟨_, s1, _, s2, _, h.symm, hne1, List.length_take_le 2 _, hd1,
                  hsep1, hne2, List.length_take_le 2 _, hd2, hsep2, hlen3,
                  List.length_take_le 4 _, hd3⟩
              next => exact absurd h (by simp)
            next => exact absurd h (by simp)
          next => exact absurd h (by simp)
      next => exact absurd h (by simp)
    next => exact absurd h (by simp)

theorem searchDateNum_sound :
    ∀ {cs m : List Char}, searchDateNum cs = some m → LooseDateDecomp m := by
  intro cs
  induction cs with
  | nil => intro m h; simp [searchDateNum] at h
  | cons c rest ih =>
    intro m h
    simp only [searchDateNum] at h
    split at h
    next m' heq =>
      cases h
      exact dateNumAt_decomp heq
    next => exact ih h

theorem extract_date_numeric_first {text : String} {m : List Char}
    (h : searchDateNum text.data = some m) :
    extract_date text = some (String.mk m) := by
  unfold extract_date
  rw [h]

/- ---- C2 ---- -/

/-- C2 (amended): every match of the numeric date tier is 1–2 digits, a
separator from the class, 1–2 digits, a second — **possibly different** —
separator from the class, and then **2 to 4** digits (taken greedily); the
first left-to-right match is returned verbatim, and the numeric tier wins
over the textual month tier whenever it matches, as on the spec's example. -/
theorem date_numeric_tier :
    (∀ (text : String) (m : List Char), searchDateNum text.data = some m →
      LooseDateDecomp m)
    ∧ (∀ (text : String) (m : List Char), searchDateNum text.data = some m →
      extract_date text = some (String.mk m))
    ∧ extract_date "Invoice date 03/14/2024 due" = some "03/14/2024" :=
  ⟨fun _ _ h => searchDateNum_sound h, fun _ _ h => extract_date_numeric_first h,
   by decide⟩

/-- Witness for C2 on the spec's example: the match `03/14/2024` has the
amended shape and `extract_date` returns it. -/
theorem date_numeric_tier_witness :
    LooseDateDecomp (String.data "03/14/2024")
    ∧ extract_date "Invoice date 03/14/2024 due"
        = some (String.mk (String.data "03/14/2024")) :=
  ⟨date_numeric_tier.1 "Invoice date 03/14/2024 due" _ (by decide),
   date_numeric_tier.2.1 "Invoice date 03/14/2024 due" _ (by decide)⟩

/-- Counterexample to C2 as stated: the code's regex does not require the two
separators to be equal, nor the final group to have exactly 2 or 4 digits —
`extract_date` matches `1.2-34` (mixed separators) and `1/2/345` (3 final
digits, where the claimed pattern would have matched only `1/2/34`). -/
theorem date_numeric_tier_counterexample :
    (extract_date "1.2-34" = some "1.2-34"
      ∧ sameSepDateShape (String.data "1.2-34") = false)
    ∧ (extract_date "1/2/345" = some "1/2/345"
      ∧ sameSepDateShape (String.data "1/2/345") = false) :=
  ⟨⟨by decide, by decide⟩, ⟨by decide, by decide⟩⟩

/- ---- arithmetic of stage 1 ---- -/

theorem cvRound_intCast (n : ℤ) : cvRound ((n : ℚ)) = n := by
  unfold cvRound
  dsimp only
  rw [Int.floor_intCast, sub_self]
  norm_num

theorem cvRound_nonneg {q : ℚ} (h : 0 ≤ q) : 0 ≤ cvRound q := by
  have hf : (0 : ℤ) ≤ ⌊q⌋ := Int.floor_nonneg.2 h
  unfold cvRound
  dsimp only
  split
  · exact hf
  · split
    · omega
    · split <;> omega

theorem saturateUchar_of_nonneg {z : ℤ} (h : 0 ≤ z) :
    saturateUchar z = (min 255 z).toNat := by
  unfold saturateUchar
  split
  · omega
  · split <;> omega

/- ---- C4 ---- -/

/-- C4 (amended): stage 1 of the preprocessing chain computes, per channel
value `p` of the decoded image, `min(255, round(|p * contrast +
brightness|))` — `cv2.convertScaleAbs` takes the **absolute value** of the
scaled result rather than clamping it to 0 from below — saturating at 255
above, with `contrast` itself unclamped; the stage is the per-pixel map over
the colour image and sits before the grayscale conversion in the chain. -/
theorem stage1_scale_offset_formula :
    (∀ (contrast brightness : ℚ) (p : Nat), p ≤ 255 →
      convertScaleAbsPix contrast brightness p
        = (min 255 (cvRound |(p : ℚ) * contrast + brightness|)).toNat)
    ∧ (∀ (contrast brightness : ℚ) (img : BGRImage),
      convertScaleAbsImg contrast brightness img
        = ⟨img.rows.map (List.map (fun px =>
            (convertScaleAbsPix contrast brightness px.1,
             convertScaleAbsPix contrast brightness px.2.1,
             convertScaleAbsPix contrast brightness px.2.2)))⟩)
    ∧ (∀ (gauss : Int → BGRImage → BGRImage) (cvt : BGRImage → GrayImage)
      (gaussG : Int → GrayImage → GrayImage) (clahe : GrayImage → GrayImage)
      (contrast brightness : ℚ) (blur : Int) (img : BGRImage),
      preprocess_image gauss cvt gaussG clahe contrast brightness blur (some img)
        = some (clahe (gaussG 5 (cvt (smoothStage gauss blur
            (convertScaleAbsImg contrast brightness img)))))) := by
  refine ⟨fun c b p _ => ?_, fun c b img => rfl,
    fun gauss cvt gaussG clahe c b blur img => rfl⟩
  unfold convertScaleAbsPix
  exact saturateUchar_of_nonneg (cvRound_nonneg (abs_nonneg _))

/-- Witness for C4 at pixel 10, contrast 1, brightness −30. -/
theorem stage1_scale_offset_formula_witness :
    convertScaleAbsPix 1 (-30) 10
      = (min 255 (cvRound |((10 : Nat) : ℚ) * 1 + (-30)|)).toNat :=
  stage1_scale_offset_formula.1 1 (-30) 10 (by norm_num)

/-- Counterexample to C4 as stated: at pixel 10, contrast 1, brightness −30
the code produces `|10 - 30| = 20`, while the claimed
`clamp(p*contrast+brightness, 0, 255)` produces 0. -/
theorem stage1_scale_offset_formula_counterexample :
    convertScaleAbsPix 1 (-30) 10 = 20 ∧ stage1ClampSpec 1 (-30) 10 = 0 := by
  constructor
  · unfold convertScaleAbsPix
    have h1 : |((10 : Nat) : ℚ) * 1 + (-30)| = ((20 : ℤ) : ℚ) := by
      rw [show ((10 : Nat) : ℚ) * 1 + (-30) = -20 by norm_num]
      norm_num
    rw [h1, cvRound_intCast]
    decide
  · unfold stage1ClampSpec
    have h1 : ((10 : Nat) : ℚ) * 1 + (-30) = ((-20 : ℤ) : ℚ) := by norm_num
    rw [h1, cvRound_intCast]
    decide

/- ---- sanity evaluations of the embedding ---- -/

theorem extract_date_textual_example :
    extract_date "Issued: March 5, 2023" = some "March 5, 2023" := by decide

theorem extract_total_subtotal_example :
    extract_total "Subtotal: 10.00" = some "10.00" := by decide

theorem extract_total_integer_keyword_example :
    extract_total "Grand Total: 7" = some "7" := by decide

theorem extract_total_double_dollar_example :
    extract_total "total $ $5.00" = some "5.00" := by decide

end Invoice
